import Mathlib

/-!
Verification development for the NFT wash-trading detection core.

We shallowly embed the two central modules,
`src/fraud/wash_trading/transaction_pattern_analysis.py`
(`TransactionPatternAnalyzer`) and
`src/fraud/wash_trading/wallet_relationship_mapping.py`
(`WalletRelationshipMapping`), and prove or refute the spec's claims
about them.

Conventions of the embedding:
* Python dicts-of-transaction-fields become Lean structures (`PTx` for the
  pattern analyzer, `RTx` for the relationship mapper).  Field `from` is
  spelled `fromW` and `to` is `toW` (`from` is reserved in Lean).
* Numeric amounts/prices/values are embedded as `ℚ` (the claims under
  study never hinge on binary floating-point rounding); `numpy` standard
  deviation tests `std < c` are embedded as the equivalent exact test
  `variance < c²`.
* `networkx` structures are embedded by their visible semantics: a
  `DiGraph` is a duplicate-free list of ordered edges (parallel edges
  collapse, exactly as in `networkx`), a `MultiDiGraph` keeps the raw
  transaction list.  Library algorithms used by the source
  (`simple_cycles`, `shortest_path_length`, `connected_components`) are
  embedded as executable Lean functions over those representations.
* Fallible Python code (`KeyError` on a missing `'chain'` key) is embedded
  with `Option`: `none` is the raised exception.
-/

namespace NFTWash

/-- Transaction record consumed by `TransactionPatternAnalyzer`
(keys `tx_id`, `from`, `to`, `amount`, `timestamp`, `price`). -/
structure PTx where
  tx_id : String
  fromW : String
  toW : String
  amount : ℚ
  timestamp : ℤ
  price : ℚ
deriving DecidableEq

/-- Edge list of the `nx.DiGraph` built by `_build_graph`: one directed
edge per ordered wallet pair.  A `DiGraph` stores at most one edge per
ordered pair, so repeated transactions between the same pair collapse
into a single edge (`dedup`). -/
def digraphEdges (txs : List PTx) : List (String × String) :=
  (txs.map fun tx => (tx.fromW, tx.toW)).dedup

/-- Node list of the `nx.DiGraph`: every wallet occurring as `from` or
`to` of some transaction. -/
def digraphNodes (txs : List PTx) : List String :=
  (txs.flatMap fun tx => [tx.fromW, tx.toW]).dedup

/-- `DiGraph.number_of_edges(u, v)`: `1` if the edge is present, else `0`
(a `DiGraph` holds at most one parallel edge). -/
def numberOfEdges (txs : List PTx) (u v : String) : ℕ :=
  if (u, v) ∈ digraphEdges txs then 1 else 0

/-- `detect_self_dealing`: wallets with a self-loop edge. -/
def detect_self_dealing (txs : List PTx) : List String :=
  (digraphNodes txs).filter fun n => decide ((n, n) ∈ digraphEdges txs)

/-- `detect_ping_pong_trading(min_count)`: iterate over the `DiGraph`
edges, keep `(u, v)` when the reverse edge exists and
`number_of_edges` in each direction is at least `min_count`. -/
def detect_ping_pong_trading (txs : List PTx) (min_count : ℕ) : List (String × String) :=
  (digraphEdges txs).filter fun e =>
    decide ((e.2, e.1) ∈ digraphEdges txs) &&
    decide (min_count ≤ numberOfEdges txs e.1 e.2) &&
    decide (min_count ≤ numberOfEdges txs e.2 e.1)

/-- A concrete batch with two A→B and two B→A transactions. -/
def pingPongBatch : List PTx :=
  [⟨"t1", "A", "B", 1, 0, 10⟩, ⟨"t2", "A", "B", 1, 10, 10⟩,
   ⟨"t3", "B", "A", 1, 20, 10⟩, ⟨"t4", "B", "A", 1, 30, 10⟩]

/-- The directed edges traversed by a cycle written as a node list:
consecutive pairs plus the wrap-around edge from the last node back to
the first.  `cycleEdges [a, b, c] = [(a, b), (b, c), (c, a)]`. -/
def cycleEdges : List String → List (String × String)
  | [] => []
  | w :: ws => (w :: ws).zip (ws ++ [w])

/-- `c` is a directed simple cycle of the analyzer's graph: nonempty,
no repeated node, and every consecutive edge (wrap-around included) is
an edge of the graph. -/
def isSimpleCycle (txs : List PTx) (c : List String) : Bool :=
  decide (c ≠ []) && decide c.Nodup && (cycleEdges c).all fun e => decide (e ∈ digraphEdges txs)

/-- Canonical rotation: the head of the list is the node occurring
earliest in the graph's node list.  `nx.simple_cycles` yields each cycle
exactly once in one rotation; we fix this one. -/
def headFirst (nodes : List String) (c : List String) : Bool :=
  match c with
  | [] => false
  | w :: ws => ws.all fun v => decide (nodes.indexOf w ≤ nodes.indexOf v)

/-- Embedding of `nx.simple_cycles`: all directed simple cycles of the
graph, each listed once in its canonical rotation, obtained by filtering
every duplicate-free arrangement of nodes. -/
def simple_cycles (txs : List PTx) : List (List String) :=
  ((digraphNodes txs).sublists.flatMap List.permutations').filter fun c =>
    isSimpleCycle txs c && headFirst (digraphNodes txs) c

/-- `detect_circular_trading(max_cycle_length)`: keep the simple cycles
whose length is `> 2` and `≤ max_cycle_length`. -/
def detect_circular_trading (txs : List PTx) (max_cycle_length : ℕ) : List (List String) :=
  (simple_cycles txs).filter fun c =>
    decide (2 < c.length) && decide (c.length ≤ max_cycle_length)

/-- Batch A→B→C→A. -/
def cycleBatch : List PTx :=
  [⟨"t1", "A", "B", 1, 0, 10⟩, ⟨"t2", "B", "C", 1, 10, 10⟩, ⟨"t3", "C", "A", 1, 20, 10⟩]

/-- Batch with only A→B and B→A. -/
def twoCycleBatch : List PTx :=
  [⟨"t1", "A", "B", 1, 0, 10⟩, ⟨"t2", "B", "A", 1, 10, 10⟩]

/-- Stable insertion by timestamp, placing the new element after every
already-placed element with a ≤ timestamp; folding it left over a list
models Python's stable `sorted(..., key=timestamp)`. -/
def insertByTime (tx : PTx) : List PTx → List PTx
  | [] => [tx]
  | t :: ts => if t.timestamp ≤ tx.timestamp then t :: insertByTime tx ts else tx :: t :: ts

/-- `sorted(self.transactions, key=lambda x: x['timestamp'])`. -/
def sortByTime (txs : List PTx) : List PTx :=
  txs.foldl (fun acc t => insertByTime t acc) []

/-- Stable insertion sort for integer timestamp lists (`times.sort()`). -/
def insertZ (x : ℤ) : List ℤ → List ℤ
  | [] => [x]
  | y :: ys => if y ≤ x then y :: insertZ x ys else x :: y :: ys

def sortZ (l : List ℤ) : List ℤ :=
  l.foldl (fun acc x => insertZ x acc) []

/-- The distinct ordered wallet pairs of the batch, in the order the
`pair_times` dict acquires its keys. -/
def orderedPairs (txs : List PTx) : List (String × String) :=
  (txs.map fun t => (t.fromW, t.toW)).dedup

/-- `pair_times[pair]`: timestamps of the transactions of one ordered
pair, in batch order. -/
def pairTimes (txs : List PTx) (pr : String × String) : List ℤ :=
  (txs.filter fun t => decide (t.fromW = pr.1 ∧ t.toW = pr.2)).map (·.timestamp)

def meanZ (l : List ℤ) : ℚ := ((l.sum : ℤ) : ℚ) / l.length

def varianceZ (l : List ℤ) : ℚ :=
  ((l.map fun x => ((x : ℤ) - meanZ l) ^ 2).sum) / l.length

/-- One entry of `detect_suspicious_timing`'s result
(`{'pair': …, 'interval': …, 'count': …}`). -/
structure TimingFlag where
  pair : String × String
  interval : ℚ
  count : ℕ
deriving DecidableEq

/-- `detect_suspicious_timing(interval_threshold)`: flag ordered pairs
whose inter-transaction intervals are nonempty, have standard deviation
below `1e-3` (embedded exactly as variance below `(1/1000)²`) and mean
below the threshold. -/
def detect_suspicious_timing (txs : List PTx) (interval_threshold : ℚ) : List TimingFlag :=
  (orderedPairs txs).filterMap fun pr =>
    let times := sortZ (pairTimes txs pr)
    let intervals := (times.zip times.tail).map fun ab => ab.2 - ab.1
    if intervals ≠ [] ∧ varianceZ intervals < (1 / 1000) ^ 2 ∧
        meanZ intervals < interval_threshold
    then some ⟨pr, meanZ intervals, times.length⟩
    else none

def meanQ (l : List ℚ) : ℚ := l.sum / l.length

def varianceQ (l : List ℚ) : ℚ :=
  ((l.map fun x => (x - meanQ l) ^ 2).sum) / l.length

/-- `detect_unusual_price_patterns(price_threshold)`: flag transactions
whose price is an exact integer (`price % 1 == 0`, i.e. denominator 1)
or deviates from the batch mean by more than `price_threshold *
avg_price`; the mean of an empty batch is `0`. -/
def detect_unusual_price_patterns (txs : List PTx) (price_threshold : ℚ) : List PTx :=
  let avg := if txs = [] then 0 else meanQ (txs.map (·.price))
  txs.filter fun t => decide (t.price.den = 1 ∨ |t.price - avg| > price_threshold * avg)

/-- One step of `temporal_sequence_detection`'s sliding window: append
the transaction, evict from the front while the newest timestamp exceeds
the oldest by more than 120 s, and emit the window when it holds more
than 3 transactions. -/
def tsdStep (acc : List (List PTx) × List PTx) (tx : PTx) : List (List PTx) × List PTx :=
  let window := (acc.2 ++ [tx]).dropWhile fun w => decide (tx.timestamp - w.timestamp > 120)
  if window.length > 3 then (acc.1 ++ [window], window) else (acc.1, window)

def temporal_sequence_detection (txs : List PTx) : List (List PTx) :=
  ((sortByTime txs).foldl tsdStep ([], [])).1

/-- `statistical_anomaly_detection`: with at least two transactions,
flag those whose price z-score exceeds 2 — embedded exactly as
`std > 0 ∧ (price − mean)² > 4 · variance`. -/
def statistical_anomaly_detection (txs : List PTx) : List PTx :=
  if txs.length < 2 then []
  else
    let prices := txs.map (·.price)
    txs.filter fun t =>
      decide (0 < varianceQ prices ∧ 4 * varianceQ prices < (t.price - meanQ prices) ^ 2)

/-- `rule_based_heuristic_evaluation`: union of the wallets flagged by
circular trading, self-dealing and ping-pong (at their default
parameters), then every transaction touching a flagged wallet. -/
def rule_based_heuristic_evaluation (txs : List PTx) : List PTx :=
  let flagged := (detect_circular_trading txs 4).flatMap id ++
    detect_self_dealing txs ++
    (detect_ping_pong_trading txs 2).flatMap fun pr => [pr.1, pr.2]
  txs.filter fun t => decide (t.fromW ∈ flagged ∨ t.toW ∈ flagged)

/-- Transaction record consumed by `WalletRelationshipMapping`
(keys `from`, `to`, `value`, `timestamp`, `gas`, `chain`).  The `chain`
key is optional in the incoming dicts, so it is embedded as an
`Option`; code reading `tx['chain']` raises `KeyError` when it is
`none`. -/
structure RTx where
  fromW : String
  toW : String
  value : ℚ
  timestamp : ℤ
  gas : ℚ
  chain : Option String
deriving DecidableEq

/-- The wallets touched by a list of transactions (each transaction
contributes its `from` and `to`), without duplicates; used both for the
mapper's graph nodes and for the wallet sets of coordination groups. -/
def rWallets (txs : List RTx) : List String :=
  (txs.flatMap fun t => [t.fromW, t.toW]).dedup

/-- Stable insertion by timestamp (new element after ≤-timestamp ones);
folded left it models Python's stable `sorted`. -/
def insertByTimeR (tx : RTx) : List RTx → List RTx
  | [] => [tx]
  | t :: ts => if t.timestamp ≤ tx.timestamp then t :: insertByTimeR tx ts else tx :: t :: ts

/-- `sorted(self.transactions, key=lambda x: x['timestamp'])`. -/
def sortByTimeR (txs : List RTx) : List RTx :=
  txs.foldl (fun acc t => insertByTimeR t acc) []

/-- The grouping loop of `temporal_coordination_patterns` over the
time-sorted list: anchor a group at the first transaction, absorb the
following transactions while they are within `window` of the anchor's
timestamp (the inner `while` is exactly `takeWhile`, the anchor `t0` is
never re-based), emit the group's wallet set when it has more than 2
distinct wallets, and restart at the first transaction outside the
window.  The `fuel` argument only makes the recursion structural; every
step consumes at least the anchor, so `fuel = length` is enough. -/
def temporalGroupsGo (window : ℤ) : ℕ → List RTx → List (List String)
  | 0, _ => []
  | _, [] => []
  | fuel + 1, tx :: rest =>
    if (rWallets (tx :: rest.takeWhile fun t =>
        decide (t.timestamp - tx.timestamp ≤ window))).length > 2
    then (rWallets (tx :: rest.takeWhile fun t =>
        decide (t.timestamp - tx.timestamp ≤ window))) ::
      temporalGroupsGo window fuel
        (rest.dropWhile fun t => decide (t.timestamp - tx.timestamp ≤ window))
    else temporalGroupsGo window fuel
        (rest.dropWhile fun t => decide (t.timestamp - tx.timestamp ≤ window))

/-- `temporal_coordination_patterns(time_window_seconds)`. -/
def temporal_coordination_patterns (txs : List RTx) (time_window_seconds : ℤ) :
    List (List String) :=
  temporalGroupsGo time_window_seconds (sortByTimeR txs).length.succ (sortByTimeR txs)

/-- The spec's temporal-coordination example: transactions at
`t = 0, 100, 250, 700` with window 600 s. -/
def temporalBatch : List RTx :=
  [⟨"A", "B", 1, 0, 1, some "eth"⟩, ⟨"C", "D", 1, 100, 1, some "eth"⟩,
   ⟨"A", "C", 1, 250, 1, some "eth"⟩, ⟨"X", "Y", 1, 700, 1, some "eth"⟩]

/-- One lookup chain of the union-find parent map (an association list
where the most recent binding wins); `fuel` bounds the chain length. -/
def ufFind (p : List (String × String)) : ℕ → String → String
  | 0, w => w
  | fuel + 1, w =>
    match p.lookup w with
    | none => w
    | some par => if par = w then w else ufFind p fuel par

/-- Merge the components of the two endpoints of one (undirected) edge. -/
def ufUnion (fuel : ℕ) (p : List (String × String)) (e : String × String) :
    List (String × String) :=
  if ufFind p fuel e.1 = ufFind p fuel e.2 then p
  else (ufFind p fuel e.1, ufFind p fuel e.2) :: p

/-- Union-find parent map after processing every transaction edge of the
undirected projection of the graph. -/
def ufParent (txs : List RTx) : List (String × String) :=
  (txs.map fun t => (t.fromW, t.toW)).foldl (ufUnion (txs.length + 1)) []

/-- Representative of a wallet's connected component. -/
def repOf (txs : List RTx) (w : String) : String :=
  ufFind (ufParent txs) (txs.length + 1) w

/-- Embedding of `cluster_wallets` =
`list(nx.connected_components(self.graph.to_undirected()))`: group the
graph's nodes by the representative of their component (union-find over
the undirected edges). -/
def cluster_wallets (txs : List RTx) : List (List String) :=
  ((rWallets txs).map (repOf txs)).dedup.map fun r =>
    (rWallets txs).filter fun w => decide (repOf txs w = r)

/-- `self._tx_lookup.get((w1, w2), []) + self._tx_lookup.get((w2, w1), [])`:
the transactions between the pair, in either direction. -/
def pairTxsR (txs : List RTx) (w1 w2 : String) : List RTx :=
  (txs.filter fun t => decide (t.fromW = w1 ∧ t.toW = w2)) ++
  (txs.filter fun t => decide (t.fromW = w2 ∧ t.toW = w1))

/-- `confidence = min(1.0, len(txs)/5)`. -/
def confidenceFactor (txs : List RTx) (w1 w2 : String) : ℚ :=
  min 1 (((pairTxsR txs w1 w2).length : ℚ) / 5)

/-- `strength = min(1.0, sum(tx['value'] for tx in txs)/100)`. -/
def strengthFactor (txs : List RTx) (w1 w2 : String) : ℚ :=
  min 1 ((((pairTxsR txs w1 w2).map (·.value)).sum) / 100)

/-- `_historical_evolution_score`: 0 with no transactions, 0.1 with one,
otherwise the timestamp span normalized to one month, capped at 1. -/
def historicalEvolutionScore (txs : List RTx) : ℚ :=
  if txs = [] then 0
  else if txs.length < 2 then 1 / 10
  else
    min 1 ((((txs.map (·.timestamp)).maximum.unbot' 0 -
          (txs.map (·.timestamp)).minimum.untop' 0 : ℤ) : ℚ) / (60 * 60 * 24 * 30))

def historicalFactor (txs : List RTx) (w1 w2 : String) : ℚ :=
  historicalEvolutionScore (pairTxsR txs w1 w2)

/-- Directed adjacency of the mapper's `MultiDiGraph`. -/
def rAdj (txs : List RTx) (u : String) : List String :=
  ((txs.filter fun t => decide (t.fromW = u)).map (·.toW)).dedup

/-- Breadth-first search level of `tgt`; `fuel` only makes the recursion
structural (each level adds at least one unvisited node, so the node
count suffices). -/
def bfsAux (txs : List RTx) (tgt : String) :
    ℕ → List String → List String → ℕ → Option ℕ
  | 0, _, _, _ => none
  | fuel + 1, frontier, visited, d =>
    if frontier = [] then none
    else if tgt ∈ frontier then some d
    else
      bfsAux txs tgt fuel
        (((frontier.flatMap (rAdj txs)).dedup).filter fun v => decide (v ∉ visited))
        (visited ++ ((frontier.flatMap (rAdj txs)).dedup).filter fun v => decide (v ∉ visited))
        (d + 1)

/-- `nx.shortest_path_length(self.graph, w1, w2)` on the directed
multigraph: `none` embeds both `NodeNotFound` (an endpoint that is not a
graph node) and `NetworkXNoPath` (no directed path). -/
def shortest_path_length (txs : List RTx) (src tgt : String) : Option ℕ :=
  if src ∈ rWallets txs ∧ tgt ∈ rWallets txs then
    bfsAux txs tgt ((rWallets txs).length + 1) [src] [src] 0
  else none

/-- `_multi_hop_score(w1, w2, max_hops)`: 0 for a direct edge
(distance 1) and for a missing node or path; `1 − (length−1)/max_hops`
for a path of length at most `max_hops`; 0 beyond. -/
def multiHopScore (txs : List RTx) (w1 w2 : String) (max_hops : ℕ) : ℚ :=
  match shortest_path_length txs w1 w2 with
  | none => 0
  | some l =>
    if l = 1 then 0
    else if l ≤ max_hops then 1 - ((l : ℚ) - 1) / (max_hops : ℚ)
    else 0

/-- Collect the `'chain'` values of a transaction list;
`none` embeds the `KeyError` raised when a record lacks the key. -/
def chainList : List RTx → Option (List String)
  | [] => some []
  | t :: ts =>
    match t.chain, chainList ts with
    | some c, some cs => some (c :: cs)
    | _, _ => none

/-- The chains a wallet transacted on
(`set(tx['chain'] for tx in self.transactions if tx['from'] == w or tx['to'] == w)`);
`none` is the `KeyError` on a record without `'chain'`. -/
def chainsOf (txs : List RTx) (w : String) : Option (List String) :=
  chainList (txs.filter fun t => decide (t.fromW = w ∨ t.toW = w))

/-- `_cross_chain_score(w1, w2)`: 1 when the two wallets' chain sets
intersect, else 0; fails (`none`) when a relevant record lacks `'chain'`. -/
def crossChainScore (txs : List RTx) (w1 w2 : String) : Option ℚ := do
  let c1 ← chainsOf txs w1
  let c2 ← chainsOf txs w2
  if c1.any fun x => decide (x ∈ c2) then pure 1 else pure 0

/-- The five factor values stored per wallet pair by
`score_relationships`. -/
structure RelScore where
  confidence : ℚ
  strength : ℚ
  historical_evolution : ℚ
  multi_hop : ℚ
  cross_chain : ℚ
deriving DecidableEq

/-- The body of `score_relationships` for one pair `(w1, w2)`. -/
def scorePair (txs : List RTx) (w1 w2 : String) : Option RelScore :=
  (crossChainScore txs w1 w2).map fun cc =>
    ⟨confidenceFactor txs w1 w2, strengthFactor txs w1 w2,
      historicalFactor txs w1 w2, multiHopScore txs w1 w2 3, cc⟩

/-- The ordered `i < j` pairs of one cluster list. -/
def pairsOf : List String → List (String × String)
  | [] => []
  | x :: xs => (xs.map fun y => (x, y)) ++ pairsOf xs

/-- All in-cluster pairs, cluster by cluster. -/
def allPairs (clusters : List (List String)) : List (String × String) :=
  clusters.flatMap pairsOf

/-- Score the pairs in order, building the result map; a `KeyError`
(`none`) from any pair aborts the whole computation. -/
def scoreList (txs : List RTx) :
    List (String × String) → Option (List ((String × String) × RelScore))
  | [] => some []
  | pr :: rest =>
    match scorePair txs pr.1 pr.2, scoreList txs rest with
    | some s, some m => some ((pr, s) :: m)
    | _, _ => none

/-- `score_relationships`: the per-pair factor map over all pairs
co-located in one of the given clusters. -/
def score_relationships (txs : List RTx) (clusters : List (List String)) :
    Option (List ((String × String) × RelScore)) :=
  scoreList txs (allPairs clusters)

/-- The mutable state of a `WalletRelationshipMapping` instance (the
fields the claims depend on). -/
structure WRMState where
  transactions : List RTx
  wallet_clusters : List (List String)
  relationship_scores : List ((String × String) × RelScore)

/-- `WalletRelationshipMapping.__init__`: `wallet_clusters` starts as
the empty list, `relationship_scores` as the empty dict. -/
def WRMState.init (txs : List RTx) : WRMState := ⟨txs, [], []⟩

/-- The `score_relationships` method as a state transformer: read
`self.wallet_clusters`, score the in-cluster pairs, assign
`self.relationship_scores` and return the map; the `KeyError` case
(`none`) aborts before the assignment. -/
def scoreRelationshipsRun (s : WRMState) :
    Option (WRMState × List ((String × String) × RelScore)) :=
  match score_relationships s.transactions s.wallet_clusters with
  | none => none
  | some m => some (⟨s.transactions, s.wallet_clusters, m⟩, m)

/-- Batch A→B, B→C (all records carry a `'chain'`): A reaches C in two
directed hops, C does not reach A. -/
def chainBatch : List RTx :=
  [⟨"A", "B", 10, 0, 1, some "eth"⟩, ⟨"B", "C", 10, 10, 1, some "eth"⟩]

/-- Batch whose only record lacks the `'chain'` key. -/
def missingChainBatch : List RTx :=
  [⟨"A", "B", 10, 0, 1, none⟩]

/-- Batch with two separate components {A, B} and {C, D}. -/
def twoClusterBatch : List RTx :=
  [⟨"A", "B", 10, 0, 1, some "eth"⟩, ⟨"C", "D", 10, 10, 1, some "eth"⟩]

/-! ### Theorems -/

/-- C1.  The spec demands that a batch with 2 A→B and 2 B→A transactions
be flagged at the default `min_count = 2`; but `_build_graph` builds an
`nx.DiGraph`, which collapses parallel edges, so `number_of_edges`
never exceeds `1` and `detect_ping_pong_trading` with `min_count = 2`
returns the empty list on *every* batch — the detector can never fire at
its default threshold.  In particular it returns `[]` on the batch with
2 A→B and 2 B→A transactions that the claim says must be flagged. -/
theorem detect_ping_pong_trading_never_fires :
    (∀ txs : List PTx, detect_ping_pong_trading txs 2 = []) ∧
    detect_ping_pong_trading pingPongBatch 2 = [] := by
  have h : ∀ txs : List PTx, detect_ping_pong_trading txs 2 = [] := by
    intro txs
    apply List.filter_eq_nil_iff.mpr
    intro e _
    simp only [Bool.and_eq_true, decide_eq_true_eq, numberOfEdges]
    intro hcontra
    rcases hcontra with ⟨⟨-, h2⟩, -⟩
    split at h2 <;> omega
  exact ⟨h, h pingPongBatch⟩

theorem digraphEdges_mem_nodes {txs : List PTx} {u v : String}
    (h : (u, v) ∈ digraphEdges txs) : u ∈ digraphNodes txs ∧ v ∈ digraphNodes txs := by
  rw [digraphEdges, List.mem_dedup, List.mem_map] at h
  obtain ⟨tx, htx, heq⟩ := h
  have h1 : tx.fromW = u := congrArg Prod.fst heq
  have h2 : tx.toW = v := congrArg Prod.snd heq
  constructor <;> rw [digraphNodes, List.mem_dedup, List.mem_flatMap]
  · exact ⟨tx, htx, by rw [h1]; simp⟩
  · exact ⟨tx, htx, by rw [h2]; simp⟩

theorem cycleEdges_map_fst (c : List String) (h : c ≠ []) :
    (cycleEdges c).map Prod.fst = c := by
  match c, h with
  | w :: ws, _ =>
    rw [cycleEdges, List.map_fst_zip]
    simp

theorem isSimpleCycle_mem_nodes {txs : List PTx} {c : List String}
    (h : isSimpleCycle txs c = true) : ∀ x ∈ c, x ∈ digraphNodes txs := by
  intro x hx
  rw [isSimpleCycle, Bool.and_eq_true, Bool.and_eq_true] at h
  obtain ⟨⟨hne, -⟩, hall⟩ := h
  rw [decide_eq_true_eq] at hne
  rw [← cycleEdges_map_fst c hne, List.mem_map] at hx
  obtain ⟨e, he, rfl⟩ := hx
  have := List.all_eq_true.mp hall e he
  rw [decide_eq_true_eq] at this
  exact (digraphEdges_mem_nodes this).1

theorem mem_cycle_candidates {nodes : List String} (hn : nodes.Nodup) (c : List String) :
    c ∈ nodes.sublists.flatMap List.permutations' ↔ c.Nodup ∧ ∀ x ∈ c, x ∈ nodes := by
  rw [List.mem_flatMap]
  constructor
  · rintro ⟨l, hl, hc⟩
    rw [List.mem_sublists] at hl
    have hperm : c.Perm l := List.mem_permutations'.mp hc
    have hlnd : l.Nodup := hl.nodup hn
    exact ⟨hperm.nodup_iff.mpr hlnd, fun x hx => hl.subset (hperm.subset hx)⟩
  · rintro ⟨hnd, hsub⟩
    refine ⟨nodes.filter fun x => decide (x ∈ c), List.mem_sublists.mpr (List.filter_sublist _),
      List.mem_permutations'.mpr ?_⟩
    have hfnd : (nodes.filter fun x => decide (x ∈ c)).Nodup := hn.filter _
    apply (hnd.subperm ?_).antisymm (hfnd.subperm ?_)
    · intro x hx
      rw [List.mem_filter, decide_eq_true_eq]
      exact ⟨hsub x hx, hx⟩
    · intro x hx
      rw [List.mem_filter, decide_eq_true_eq] at hx
      exact hx.2

/-- C8.  `detect_circular_trading` returns exactly the directed simple
cycles (in canonical rotation) of length in `(2, max_cycle_length]`;
on the batch A→B→C→A with `max_cycle_length = 4` it returns exactly one
3-cycle, a rotation of `[A, B, C]`, and on a batch with only A→B and
B→A it returns nothing (the 2-cycle is excluded). -/
theorem detect_circular_trading_spec :
    (∀ (txs : List PTx) (maxLen : ℕ) (c : List String),
      c ∈ detect_circular_trading txs maxLen ↔
        isSimpleCycle txs c = true ∧ headFirst (digraphNodes txs) c = true ∧
          2 < c.length ∧ c.length ≤ maxLen) ∧
    detect_circular_trading cycleBatch 4 = [["B", "C", "A"]] ∧
    (["A", "B", "C"] : List String).IsRotated ["B", "C", "A"] ∧
    detect_circular_trading twoCycleBatch 4 = [] := by
  refine ⟨?_, by decide, ⟨1, by decide⟩, by decide⟩
  intro txs maxLen c
  rw [detect_circular_trading, List.mem_filter, simple_cycles, List.mem_filter,
    Bool.and_eq_true, Bool.and_eq_true, decide_eq_true_eq, decide_eq_true_eq]
  constructor
  · rintro ⟨⟨-, hsc, hhf⟩, hlen⟩
    exact ⟨hsc, hhf, hlen⟩
  · rintro ⟨hsc, hhf, hlen⟩
    have hnd : c.Nodup := by
      rw [isSimpleCycle, Bool.and_eq_true, Bool.and_eq_true] at hsc
      exact decide_eq_true_eq.mp hsc.1.2
    exact ⟨⟨(mem_cycle_candidates (List.nodup_dedup _) c).mpr
      ⟨hnd, isSimpleCycle_mem_nodes hsc⟩, hsc, hhf⟩, hlen⟩

/-- C9.  On the empty batch every detector of `TransactionPatternAnalyzer`
returns an empty result (at the source's default parameters) and the
built graph has zero nodes and zero edges. -/
theorem empty_batch_all_detectors_empty :
    detect_circular_trading [] 4 = [] ∧
    detect_self_dealing [] = [] ∧
    detect_ping_pong_trading [] 2 = [] ∧
    detect_suspicious_timing [] 60 = [] ∧
    detect_unusual_price_patterns [] (1 / 10) = [] ∧
    temporal_sequence_detection [] = [] ∧
    statistical_anomaly_detection [] = [] ∧
    rule_based_heuristic_evaluation [] = [] ∧
    digraphNodes [] = [] ∧ digraphEdges [] = [] := by
  exact ⟨rfl, rfl, rfl, rfl, rfl, rfl, rfl, rfl, rfl, rfl⟩

theorem temporalGroupsGo_mem (window : ℤ) :
    ∀ (fuel : ℕ) (l : List RTx) (g : List String), g ∈ temporalGroupsGo window fuel l →
      ∃ pre a mid post, l = pre ++ a :: (mid ++ post) ∧ g = rWallets (a :: mid) ∧
        2 < g.length ∧ (∀ t ∈ mid, t.timestamp - a.timestamp ≤ window) ∧
        ∀ b ∈ post.head?, window < b.timestamp - a.timestamp := by
  intro fuel
  induction fuel with
  | zero => intro l g hg; simp [temporalGroupsGo] at hg
  | succ fuel ih =>
    intro l g hg
    match l with
    | [] => simp [temporalGroupsGo] at hg
    | tx :: rest =>
      rw [temporalGroupsGo] at hg
      have hrec : g ∈ temporalGroupsGo window fuel
          (rest.dropWhile fun t => decide (t.timestamp - tx.timestamp ≤ window)) →
          ∃ pre a mid post, tx :: rest = pre ++ a :: (mid ++ post) ∧
            g = rWallets (a :: mid) ∧ 2 < g.length ∧
            (∀ t ∈ mid, t.timestamp - a.timestamp ≤ window) ∧
            ∀ b ∈ post.head?, window < b.timestamp - a.timestamp := by
        intro hmem
        obtain ⟨pre, a, mid, post, hsplit, hgr, hlen, hmid, hpost⟩ := ih _ g hmem
        refine ⟨tx :: (rest.takeWhile fun t =>
          decide (t.timestamp - tx.timestamp ≤ window)) ++ pre, a, mid, post, ?_,
          hgr, hlen, hmid, hpost⟩
        simp only [List.cons_append, List.append_assoc]
        rw [← hsplit, List.takeWhile_append_dropWhile]
      split at hg
      · rcases List.mem_cons.mp hg with hEq | hmem
        · subst hEq
          refine ⟨[], tx, rest.takeWhile fun t =>
            decide (t.timestamp - tx.timestamp ≤ window),
            rest.dropWhile fun t => decide (t.timestamp - tx.timestamp ≤ window),
            by rw [List.nil_append, List.takeWhile_append_dropWhile], rfl, ?_, ?_, ?_⟩
          · assumption
          · intro t ht
            have h1 := List.mem_takeWhile_imp ht
            simp only [decide_eq_true_eq] at h1
            exact h1
          · intro b hb
            have hnot := List.head?_dropWhile_not
              (fun t : RTx => decide (t.timestamp - tx.timestamp ≤ window)) rest
            rw [Option.mem_def] at hb
            rw [hb] at hnot
            simp only [decide_eq_false_iff_not, not_le] at hnot
            omega
        · exact hrec hmem
      · exact hrec hg

/-- C7.  Every group emitted by `temporal_coordination_patterns` arises
from a decomposition of the time-sorted batch: it is the wallet set of
an anchor transaction `a` together with the following transactions whose
timestamps are within the window of `a`'s timestamp (the anchor is never
re-based), it involves more than 2 distinct wallets, and the next group
starts at the first transaction outside `a`'s window. -/
theorem temporal_coordination_patterns_spec (window : ℤ) (txs : List RTx)
    (g : List String) (hg : g ∈ temporal_coordination_patterns txs window) :
    ∃ pre a mid post, sortByTimeR txs = pre ++ a :: (mid ++ post) ∧
      g = rWallets (a :: mid) ∧ 2 < g.length ∧
      (∀ t ∈ mid, t.timestamp - a.timestamp ≤ window) ∧
      ∀ b ∈ post.head?, window < b.timestamp - a.timestamp :=
  temporalGroupsGo_mem window _ _ g hg

/-- Witness for C7 at the spec's example: the group anchored at `t = 0`
absorbs the transactions at `t = 100` and `t = 250` but not `t = 700`
(so its wallet set is `{A, B, C, D}` and the `t = 700` group, with only
2 wallets, is not emitted), and the emitted group admits the
decomposition promised by the theorem. -/
theorem temporal_coordination_patterns_spec_witness :
    temporal_coordination_patterns temporalBatch 600 = [["B", "D", "A", "C"]] ∧
    (∃ pre a mid post, sortByTimeR temporalBatch = pre ++ a :: (mid ++ post) ∧
      ["B", "D", "A", "C"] = rWallets (a :: mid) ∧
      2 < (["B", "D", "A", "C"] : List String).length ∧
      (∀ t ∈ mid, t.timestamp - a.timestamp ≤ 600) ∧
      ∀ b ∈ post.head?, 600 < b.timestamp - a.timestamp) :=
  ⟨by decide, temporal_coordination_patterns_spec 600 temporalBatch _ (by decide)⟩

/-- C10.  Calling `score_relationships` before `cluster_wallets` has
ever run operates on the constructor's `wallet_clusters = []`, returns
the empty map, and leaves `relationship_scores` empty — no error. -/
theorem score_relationships_before_clustering (txs : List RTx) :
    scoreRelationshipsRun (WRMState.init txs) = some (WRMState.init txs, []) := rfl

/-- C3.  The `multi_hop` factor is 0 when the directed graph distance is
1, 0 when there is no path or node (`none`), 0 when the distance exceeds
`max_hops = 3`, and `1 − (distance − 1)/3` for distances from 2 to 3. -/
theorem multiHopScore_spec (txs : List RTx) (w1 w2 : String) :
    (shortest_path_length txs w1 w2 = some 1 → multiHopScore txs w1 w2 3 = 0) ∧
    (shortest_path_length txs w1 w2 = none → multiHopScore txs w1 w2 3 = 0) ∧
    (∀ d : ℕ, shortest_path_length txs w1 w2 = some d → 3 < d →
      multiHopScore txs w1 w2 3 = 0) ∧
    (∀ d : ℕ, shortest_path_length txs w1 w2 = some d → 2 ≤ d → d ≤ 3 →
      multiHopScore txs w1 w2 3 = 1 - ((d : ℚ) - 1) / 3) := by
  refine ⟨fun h => ?_, fun h => ?_, fun d h hd => ?_, fun d h hd2 hd3 => ?_⟩
  · rw [multiHopScore, h]; rfl
  · rw [multiHopScore, h]
  · rw [multiHopScore, h]
    simp only [Nat.cast_ofNat]
    rw [if_neg (by omega), if_neg (by omega)]
  · rw [multiHopScore, h]
    simp only [Nat.cast_ofNat]
    rw [if_neg (by omega), if_pos hd3]

/-- Witness for C3: in `chainBatch`, A reaches C at directed distance 2,
and the multi-hop factor there is `1 − (2 − 1)/3 = 2/3`. -/
theorem multiHopScore_spec_witness :
    shortest_path_length chainBatch "A" "C" = some 2 ∧
    multiHopScore chainBatch "A" "C" 3 = 1 - ((2 : ℚ) - 1) / 3 ∧
    (1 : ℚ) - ((2 : ℚ) - 1) / 3 = 2 / 3 :=
  ⟨by decide,
    (multiHopScore_spec chainBatch "A" "C").2.2.2 2 (by decide) (by norm_num) (by norm_num),
    by norm_num⟩

theorem chainList_eq_none {l : List RTx} (h : ∃ tx ∈ l, tx.chain = none) :
    chainList l = none := by
  induction l with
  | nil => simp at h
  | cons t ts ih =>
    obtain ⟨tx, htx, hc⟩ := h
    rcases List.mem_cons.mp htx with rfl | hmem
    · rw [chainList, hc]
    · rw [chainList, ih ⟨tx, hmem, hc⟩]
      cases t.chain <;> rfl

/-- C2 (amended).  When some transaction incident to `w1` lacks the
`'chain'` key, `_cross_chain_score` hits a `KeyError` and the pair's
scoring fails (`none`) instead of degrading the factor to 0. -/
theorem scorePair_missing_chain_fails (txs : List RTx) (w1 w2 : String)
    (h : ∃ tx ∈ txs, (tx.fromW = w1 ∨ tx.toW = w1) ∧ tx.chain = none) :
    scorePair txs w1 w2 = none := by
  obtain ⟨tx, htx, hw, hc⟩ := h
  have hchains : chainsOf txs w1 = none := by
    apply chainList_eq_none
    refine ⟨tx, List.mem_filter.mpr ⟨htx, ?_⟩, hc⟩
    exact decide_eq_true_eq.mpr hw
  rw [scorePair, crossChainScore, hchains]
  rfl

/-- Counterexample to C2 as claimed: on the batch whose only record has
no `'chain'`, clustering succeeds but `score_relationships` fails
(`none`) — it does not succeed with a degraded `cross_chain` factor. -/
theorem score_relationships_missing_chain_counterexample :
    cluster_wallets missingChainBatch = [["A", "B"]] ∧
    score_relationships missingChainBatch (cluster_wallets missingChainBatch) = none := by
  constructor <;> decide

/-- Witness for the amended C2 at a concrete input. -/
theorem scorePair_missing_chain_fails_witness :
    (∃ tx ∈ missingChainBatch, (tx.fromW = "A" ∨ tx.toW = "A") ∧ tx.chain = none) ∧
    scorePair missingChainBatch "A" "B" = none :=
  ⟨by decide, scorePair_missing_chain_fails missingChainBatch "A" "B" (by decide)⟩

theorem mem_rWallets_iff {txs : List RTx} {w : String} :
    w ∈ rWallets txs ↔ ∃ tx ∈ txs, tx.fromW = w ∨ tx.toW = w := by
  rw [rWallets, List.mem_dedup, List.mem_flatMap]
  constructor
  · rintro ⟨tx, htx, hm⟩
    refine ⟨tx, htx, ?_⟩
    rcases List.mem_cons.mp hm with rfl | hm
    · exact Or.inl rfl
    · simp only [List.mem_singleton] at hm
      exact Or.inr hm.symm
  · rintro ⟨tx, htx, h | h⟩ <;> exact ⟨tx, htx, by simp [h]⟩

theorem cluster_wallets_shape {txs : List RTx} {c : List String}
    (hc : c ∈ cluster_wallets txs) :
    ∃ r, c = (rWallets txs).filter fun w => decide (repOf txs w = r) := by
  rw [cluster_wallets, List.mem_map] at hc
  obtain ⟨r, -, h⟩ := hc
  exact ⟨r, h.symm⟩

theorem cluster_wallets_mem_unique {txs : List RTx} {c1 c2 : List String} {w : String}
    (h1 : c1 ∈ cluster_wallets txs) (h2 : c2 ∈ cluster_wallets txs)
    (hw1 : w ∈ c1) (hw2 : w ∈ c2) : c1 = c2 := by
  obtain ⟨r1, rfl⟩ := cluster_wallets_shape h1
  obtain ⟨r2, rfl⟩ := cluster_wallets_shape h2
  have e1 := List.of_mem_filter hw1
  have e2 := List.of_mem_filter hw2
  simp only [decide_eq_true_eq] at e1 e2
  rw [← e1, ← e2]

/-- C6.  The clusters partition the wallets that appear in a
transaction: every such wallet lies in a cluster, any two clusters
containing it coincide, and cluster members are exactly wallets of the
batch. -/
theorem cluster_wallets_partition (txs : List RTx) :
    (∀ w : String, (∃ tx ∈ txs, tx.fromW = w ∨ tx.toW = w) →
      ∃ c, c ∈ cluster_wallets txs ∧ w ∈ c ∧
        ∀ c', c' ∈ cluster_wallets txs → w ∈ c' → c' = c) ∧
    ∀ c ∈ cluster_wallets txs, ∀ w ∈ c, ∃ tx ∈ txs, tx.fromW = w ∨ tx.toW = w := by
  constructor
  · intro w hw
    have hwn : w ∈ rWallets txs := mem_rWallets_iff.mpr hw
    have hcmem : ((rWallets txs).filter fun v => decide (repOf txs v = repOf txs w)) ∈
        cluster_wallets txs := by
      rw [cluster_wallets, List.mem_map]
      exact ⟨repOf txs w, List.mem_dedup.mpr (List.mem_map.mpr ⟨w, hwn, rfl⟩), rfl⟩
    have hwmem : w ∈ (rWallets txs).filter fun v => decide (repOf txs v = repOf txs w) :=
      List.mem_filter.mpr ⟨hwn, decide_eq_true_eq.mpr rfl⟩
    exact ⟨_, hcmem, hwmem,
      fun c' hc' hwc' => cluster_wallets_mem_unique hc' hcmem hwc' hwmem⟩
  · intro c hc w hwc
    obtain ⟨r, rfl⟩ := cluster_wallets_shape hc
    exact mem_rWallets_iff.mp (List.mem_of_mem_filter hwc)

/-- Witness for C6 at a concrete two-component batch. -/
theorem cluster_wallets_partition_witness :
    (∃ tx ∈ twoClusterBatch, tx.fromW = "A" ∨ tx.toW = "A") ∧
    ∃ c, c ∈ cluster_wallets twoClusterBatch ∧ "A" ∈ c ∧
      ∀ c', c' ∈ cluster_wallets twoClusterBatch → "A" ∈ c' → c' = c :=
  ⟨by decide, (cluster_wallets_partition twoClusterBatch).1 "A" (by decide)⟩

theorem pairsOf_mem : ∀ {l : List String} {x y : String}, (x, y) ∈ pairsOf l →
    x ∈ l ∧ y ∈ l := by
  intro l
  induction l with
  | nil => intro x y h; simp [pairsOf] at h
  | cons a as ih =>
    intro x y h
    rw [pairsOf, List.mem_append] at h
    rcases h with h | h
    · rw [List.mem_map] at h
      obtain ⟨y', hy', heq⟩ := h
      have hfst : a = x := congrArg Prod.fst heq
      have hsnd : y' = y := congrArg Prod.snd heq
      subst hfst; subst hsnd
      exact ⟨List.mem_cons_self _ _, List.mem_cons_of_mem _ hy'⟩
    · obtain ⟨hx, hy⟩ := ih h
      exact ⟨List.mem_cons_of_mem _ hx, List.mem_cons_of_mem _ hy⟩

theorem allPairs_mem {clusters : List (List String)} {x y : String}
    (h : (x, y) ∈ allPairs clusters) : ∃ c ∈ clusters, x ∈ c ∧ y ∈ c := by
  rw [allPairs, List.mem_flatMap] at h
  obtain ⟨c, hc, hp⟩ := h
  exact ⟨c, hc, pairsOf_mem hp⟩

theorem scoreList_keys {txs : List RTx} :
    ∀ {l : List (String × String)} {m}, scoreList txs l = some m →
      m.map Prod.fst = l := by
  intro l
  induction l with
  | nil =>
    intro m h
    rw [scoreList, Option.some.injEq] at h
    rw [← h]; rfl
  | cons pr rest ih =>
    intro m h
    rw [scoreList] at h
    cases hs : scorePair txs pr.1 pr.2 <;> rw [hs] at h
    · simp at h
    · cases hr : scoreList txs rest <;> rw [hr] at h
      · simp at h
      · simp only [Option.some.injEq] at h
        rw [← h, List.map_cons, ih hr]

/-- C5.  After clustering, `score_relationships` holds no entry — in
either key orientation — for a wallet pair whose wallets lie in two
different clusters. -/
theorem score_relationships_within_clusters (txs : List RTx)
    (m : List ((String × String) × RelScore)) (c1 c2 : List String) (w1 w2 : String)
    (hm : score_relationships txs (cluster_wallets txs) = some m)
    (hc1 : c1 ∈ cluster_wallets txs) (hc2 : c2 ∈ cluster_wallets txs)
    (hw1 : w1 ∈ c1) (hw2 : w2 ∈ c2) (hne : c1 ≠ c2) :
    (∀ s, ((w1, w2), s) ∉ m) ∧ ∀ s, ((w2, w1), s) ∉ m := by
  have hkeys : m.map Prod.fst = allPairs (cluster_wallets txs) := scoreList_keys hm
  constructor <;> intro s hmem
  · have hk : (w1, w2) ∈ allPairs (cluster_wallets txs) := by
      rw [← hkeys]
      exact List.mem_map.mpr ⟨((w1, w2), s), hmem, rfl⟩
    obtain ⟨c, hc, hx, hy⟩ := allPairs_mem hk
    exact hne ((cluster_wallets_mem_unique hc1 hc hw1 hx).trans
      (cluster_wallets_mem_unique hc hc2 hy hw2))
  · have hk : (w2, w1) ∈ allPairs (cluster_wallets txs) := by
      rw [← hkeys]
      exact List.mem_map.mpr ⟨((w2, w1), s), hmem, rfl⟩
    obtain ⟨c, hc, hx, hy⟩ := allPairs_mem hk
    exact hne ((cluster_wallets_mem_unique hc1 hc hw1 hy).trans
      (cluster_wallets_mem_unique hc hc2 hx hw2))

/-- Witness for C5: on the two-component batch, scoring succeeds and no
entry exists (in either orientation) for the cross-cluster pair A, C. -/
theorem score_relationships_within_clusters_witness :
    ∃ m, score_relationships twoClusterBatch (cluster_wallets twoClusterBatch) = some m ∧
      (∀ s, (("A", "C"), s) ∉ m) ∧ ∀ s, (("C", "A"), s) ∉ m := by
  have hs : (score_relationships twoClusterBatch
      (cluster_wallets twoClusterBatch)).isSome = true := by decide
  obtain ⟨m, hm⟩ := Option.isSome_iff_exists.mp hs
  exact ⟨m, hm, score_relationships_within_clusters twoClusterBatch m
    ["A", "B"] ["C", "D"] "A" "C" hm (by decide) (by decide) (by decide) (by decide)
    (by decide)⟩

theorem maximum_append (l1 l2 : List ℤ) :
    (l1 ++ l2).maximum = max l1.maximum l2.maximum := by
  induction l1 with
  | nil =>
    rw [List.nil_append, List.maximum_nil]
    exact (max_eq_right bot_le).symm
  | cons a as ih =>
    rw [List.cons_append, List.maximum_cons, List.maximum_cons, ih, max_assoc]

theorem minimum_append (l1 l2 : List ℤ) :
    (l1 ++ l2).minimum = min l1.minimum l2.minimum := by
  induction l1 with
  | nil =>
    rw [List.nil_append, List.minimum_nil]
    exact (min_eq_right le_top).symm
  | cons a as ih =>
    rw [List.cons_append, List.minimum_cons, List.minimum_cons, ih, min_assoc]

theorem historicalEvolutionScore_append_comm (l1 l2 : List RTx) :
    historicalEvolutionScore (l1 ++ l2) = historicalEvolutionScore (l2 ++ l1) := by
  have hnil : (l1 ++ l2 = []) ↔ (l2 ++ l1 = []) := by
    rw [List.append_eq_nil, List.append_eq_nil, and_comm]
  have hlen : (l1 ++ l2).length = (l2 ++ l1).length := by
    rw [List.length_append, List.length_append, Nat.add_comm]
  have hmax : ((l1 ++ l2).map (·.timestamp)).maximum =
      ((l2 ++ l1).map (·.timestamp)).maximum := by
    rw [List.map_append, List.map_append, maximum_append, maximum_append, max_comm]
  have hmin : ((l1 ++ l2).map (·.timestamp)).minimum =
      ((l2 ++ l1).map (·.timestamp)).minimum := by
    rw [List.map_append, List.map_append, minimum_append, minimum_append, min_comm]
  rw [historicalEvolutionScore, historicalEvolutionScore, hlen, hmax, hmin]
  exact if_congr hnil rfl rfl

theorem pairTxsR_swap (txs : List RTx) (w1 w2 : String) :
    pairTxsR txs w2 w1 =
      (txs.filter fun t => decide (t.fromW = w2 ∧ t.toW = w1)) ++
      (txs.filter fun t => decide (t.fromW = w1 ∧ t.toW = w2)) := rfl

/-- C4 (amended).  The `confidence`, `strength`, `historical_evolution`
and `cross_chain` factors are independent of the orientation in which a
pair is processed (the `multi_hop` factor is not: it follows the
directed shortest-path distance, see the counterexample). -/
theorem factors_orientation_independent (txs : List RTx) (w1 w2 : String) :
    confidenceFactor txs w1 w2 = confidenceFactor txs w2 w1 ∧
    strengthFactor txs w1 w2 = strengthFactor txs w2 w1 ∧
    historicalFactor txs w1 w2 = historicalFactor txs w2 w1 ∧
    crossChainScore txs w1 w2 = crossChainScore txs w2 w1 := by
  refine ⟨?_, ?_, ?_, ?_⟩
  · rw [confidenceFactor, confidenceFactor, pairTxsR, pairTxsR_swap,
      List.length_append, List.length_append, Nat.add_comm]
  · rw [strengthFactor, strengthFactor, pairTxsR, pairTxsR_swap,
      List.map_append, List.map_append, List.sum_append, List.sum_append, add_comm]
  · rw [historicalFactor, historicalFactor, pairTxsR, pairTxsR_swap]
    exact historicalEvolutionScore_append_comm _ _
  · rw [crossChainScore, crossChainScore]
    cases h1 : chainsOf txs w1 <;> cases h2 : chainsOf txs w2 <;>
      simp only [h1, h2, Option.bind_eq_bind, Option.none_bind, Option.some_bind]
    rename_i c1 c2
    have hany : (c1.any fun x => decide (x ∈ c2)) = (c2.any fun x => decide (x ∈ c1)) := by
      rw [Bool.eq_iff_iff, List.any_eq_true, List.any_eq_true]
      constructor <;> rintro ⟨x, hx, hx2⟩ <;>
        exact ⟨x, decide_eq_true_eq.mp hx2, decide_eq_true_eq.mpr hx⟩
    rw [hany]

/-- Counterexample to C4 as claimed: in the batch A→B, B→C the pair
(A, C) is co-clustered (so it is entered in the score map), yet the
factor tuple computed for (A, C) differs from the one for (C, A): the
multi-hop factor is `2/3` one way (directed distance 2) and `0` the
other (no directed path from C to A). -/
theorem relScore_orientation_counterexample :
    (∃ c ∈ cluster_wallets chainBatch, "A" ∈ c ∧ "C" ∈ c) ∧
    scorePair chainBatch "A" "C" ≠ scorePair chainBatch "C" "A" := by
  refine ⟨by decide, ?_⟩
  have hAC : shortest_path_length chainBatch "A" "C" = some 2 := by decide
  have hCA : shortest_path_length chainBatch "C" "A" = none := by decide
  have h1 : multiHopScore chainBatch "A" "C" 3 = 1 - ((2 : ℚ) - 1) / 3 := by
    rw [multiHopScore, hAC]
    simp only [Nat.cast_ofNat]
    rw [if_neg (by omega), if_pos (by omega)]
  have h2 : multiHopScore chainBatch "C" "A" 3 = 0 := by
    rw [multiHopScore, hCA]
  have hc1 : crossChainScore chainBatch "A" "C" = some 1 := by decide
  have hc2 : crossChainScore chainBatch "C" "A" = some 1 := by decide
  rw [scorePair, scorePair, hc1, hc2]
  simp only [Option.map_some']
  intro heq
  rw [Option.some.injEq] at heq
  have hmh := congrArg RelScore.multi_hop heq
  simp only at hmh
  rw [h1, h2] at hmh
  norm_num at hmh

end NFTWash
